import Mathlib

/-!
Verification of the CCDB resolution/versioning engine and its string helpers.

The development shallowly embeds:
* `src/include/CCDB/Helpers/StringUtils.h` — the blank-character macros, the
  inline `Trim` implementation, and the `LexicalSplit` tokenizer;
* `src/include/CCDB/Providers/DataProvider.h` — the assignment resolution,
  versioning, creation and error-bookkeeping operations.

Strings are embedded as `List Char`; machine integers as `Int`/`Nat`
(no arithmetic here ever nears an overflow boundary); fallible operations
return `Option` or a success flag alongside an unchanged/updated state.
-/

namespace ccdb

/-! ## Blank characters (StringUtils.h lines 28-31) -/

/-- The macro `CCDB_BLANK_CHARACTERS " \n\t\v\r\f"`, as the list of its six
characters (space, newline, tab, vertical tab, carriage return, form feed). -/
def ccdbBlankCharacters : List Char := [' ', '\n', '\t', '\x0b', '\r', '\x0c']

/-- The macro `CCDB_CHECK_CHAR_IS_BLANK(character)`: a disjunction of six
character equality tests, exactly as written in the C++ macro. -/
def ccdbCheckCharIsBlank (c : Char) : Bool :=
  c == ' ' || c == '\n' || c == '\t' || c == '\x0b' || c == '\r' || c == '\x0c'

/-- Membership in `CCDB_BLANK_CHARACTERS`, the form used by `Trim` through
`find_first_not_of`/`find_last_not_of`. -/
def isBlankChar (c : Char) : Bool := ccdbBlankCharacters.contains c

/-! ## StringUtils::Trim (StringUtils.h lines 184-190)

```cpp
static void Trim( string& s )
{
    static const char whitespace[] = CCDB_BLANK_CHARACTERS;
    s.erase( 0, s.find_first_not_of(whitespace) );
    s.erase( s.find_last_not_of(whitespace) + 1U );
}
```

`s.erase(0, find_first_not_of(ws))` removes the maximal leading run of blank
characters (everything, via `npos`, when the string is all-blank), i.e.
`List.dropWhile isBlankChar`.  `s.erase(find_last_not_of(ws) + 1)` keeps the
prefix ending at the last non-blank character (`npos + 1 = 0` keeps nothing
when all-blank), i.e. `List.rdropWhile isBlankChar`. -/

/-- `StringUtils::Trim`: drop the leading blank run, then the trailing blank
run, of a string viewed as a character list. -/
def Trim (s : List Char) : List Char :=
  (s.dropWhile isBlankChar).rdropWhile isBlankChar

/-! ## Theorems for C10 and C9 -/

/-- C10: the two blank-character definitions agree — for every character `c`,
`CCDB_CHECK_CHAR_IS_BLANK(c)` is true exactly when `c` occurs in the
`CCDB_BLANK_CHARACTERS` string `" \n\t\v\r\f"`. -/
theorem checkCharIsBlank_iff_mem_blankCharacters (c : Char) :
    ccdbCheckCharIsBlank c = true ↔ c ∈ ccdbBlankCharacters := by
  simp only [ccdbCheckCharIsBlank, ccdbBlankCharacters, Bool.or_eq_true, beq_iff_eq,
    List.mem_cons, List.not_mem_nil, or_false]
  tauto

/-- Generic fact: the head of `dropWhile p l`, when it exists, fails `p`. -/
theorem dropWhile_head?_false {α : Type} (p : α → Bool) (l : List α) (c : α)
    (h : (l.dropWhile p).head? = some c) : p c = false := by
  induction l with
  | nil => simp at h
  | cons a t ih =>
    rw [List.dropWhile_cons] at h
    by_cases hp : p a = true
    · rw [if_pos hp] at h; exact ih h
    · rw [if_neg hp] at h
      simp only [List.head?_cons, Option.some.injEq] at h
      subst h
      exact eq_false_of_ne_true hp

/-- Generic fact: `rdropWhile p l` is a prefix of `l`, so a head it has is
also the head of `l`. -/
theorem rdropWhile_head? {α : Type} (p : α → Bool) (l : List α) (c : α)
    (h : (l.rdropWhile p).head? = some c) : l.head? = some c := by
  obtain ⟨t, ht⟩ := List.rdropWhile_prefix p l
  cases hE : l.rdropWhile p with
  | nil => rw [hE] at h; simp at h
  | cons a as =>
    rw [hE] at h ht
    rw [← ht]
    simpa using h

/-- Generic fact: the last element of `rdropWhile p l`, when it exists,
fails `p`. -/
theorem rdropWhile_getLast?_false {α : Type} (p : α → Bool) (l : List α) (c : α)
    (h : (l.rdropWhile p).getLast? = some c) : p c = false := by
  rw [List.rdropWhile, List.getLast?_reverse] at h
  exact dropWhile_head?_false p l.reverse c h

/-- The head of a trimmed string, when it exists, is not blank. -/
theorem trim_head_not_blank (s : List Char) (c : Char)
    (hc : (Trim s).head? = some c) : isBlankChar c = false :=
  dropWhile_head?_false isBlankChar s c
    (rdropWhile_head? isBlankChar (s.dropWhile isBlankChar) c hc)

/-- The last character of a trimmed string, when it exists, is not blank. -/
theorem trim_getLast_not_blank (s : List Char) (c : Char)
    (hc : (Trim s).getLast? = some c) : isBlankChar c = false :=
  rdropWhile_getLast?_false isBlankChar (s.dropWhile isBlankChar) c hc

/-- C9: after `Trim`, the string neither begins nor ends with any of the six
blank characters of `CCDB_BLANK_CHARACTERS`; applying `Trim` a second time
changes nothing (idempotence); and an all-blank string trims to empty. -/
theorem trim_spec (s : List Char) :
    (∀ c, (Trim s).head? = some c → isBlankChar c = false) ∧
    (∀ c, (Trim s).getLast? = some c → isBlankChar c = false) ∧
    Trim (Trim s) = Trim s ∧
    ((∀ c ∈ s, isBlankChar c = true) → Trim s = []) := by
  refine ⟨trim_head_not_blank s, trim_getLast_not_blank s, ?_, ?_⟩
  · by_cases hE : Trim s = []
    · rw [hE]; rfl
    · obtain ⟨a, as, hcons⟩ : ∃ a as, Trim s = a :: as := by
        cases h2 : Trim s with
        | nil => exact absurd h2 hE
        | cons a as => exact ⟨a, as, rfl⟩
      have hpa : isBlankChar a = false :=
        trim_head_not_blank s a (by rw [hcons]; rfl)
      have hdrop : (Trim s).dropWhile isBlankChar = Trim s := by
        rw [hcons, List.dropWhile_cons, hpa]; simp
      show ((Trim s).dropWhile isBlankChar).rdropWhile isBlankChar = Trim s
      rw [hdrop]
      show ((s.dropWhile isBlankChar).rdropWhile isBlankChar).rdropWhile isBlankChar = Trim s
      rw [List.rdropWhile_idempotent]
      rfl
  · intro hall
    show (s.dropWhile isBlankChar).rdropWhile isBlankChar = []
    have h0 : s.dropWhile isBlankChar = [] := List.dropWhile_eq_nil_iff.mpr hall
    rw [h0, List.rdropWhile_nil]

/-- Closed instance of `trim_spec` at the concrete inputs "  a b\t" and
" \t\n": the trimmed string is blank-free and stable, and the all-blank
string trims to empty. -/
theorem trim_spec_witness :
    Trim (Trim [' ', ' ', 'a', ' ', 'b', '\t']) = Trim [' ', ' ', 'a', ' ', 'b', '\t'] ∧
    Trim [' ', '\t', '\n'] = [] :=
  ⟨(trim_spec [' ', ' ', 'a', ' ', 'b', '\t']).2.2.1,
   (trim_spec [' ', '\t', '\n']).2.2.2 (by decide)⟩

/-! ## StringUtils::LexicalSplit

The implementation file of `LexicalSplit` is not among the analyzed sources;
only its declaration and documentation in `StringUtils.h` (lines 192-246) are.
The tokenizer below is therefore modelled from the spec (§4.5/§6 grammar),
which the header documentation restates: whitespace separates tokens, `#`
starts a comment to end of line unless inside quotes, `"` opens a quoted
region ended by the next unescaped `"` (`\"` is a literal quote), an unclosed
quote extends to end of line without error, and fragments abutting with no
intervening whitespace merge into one token. -/

/-- The tokenizer's scanning mode: outside any quote, inside a quoted region,
or inside a quoted region right after a backslash. -/
inductive LexMode
  | out : LexMode
  | inQuote : LexMode
  | inEscape : LexMode
deriving DecidableEq

/-- Emit the pending token, if one is open. `none` means no token is pending
(distinct from a pending empty token produced by `""`). -/
def lexFinish : Option (List Char) → List String
  | none => []
  | some t => [String.mk t]

/-- Modelled from the spec: the character-by-character tokenizer loop of
`StringUtils::LexicalSplit` (whose implementation file is not among the
analyzed sources). Outside quotes, blanks end the pending token, `#` ends
the line, and `"` opens a quoted region that merges with the pending token;
inside quotes, `\` escapes so that `\"` is a literal quote, an unescaped `"`
closes the region (leaving the token pending so abutting fragments merge),
and end of line ends the token without error. -/
def lexRun : LexMode → Option (List Char) → List Char → List String
  | .out, acc, [] => lexFinish acc
  | .inQuote, acc, [] => [String.mk (acc.getD [])]
  | .inEscape, acc, [] => [String.mk (acc.getD [] ++ ['\\'])]
  | .out, acc, c :: rest =>
      if isBlankChar c = true then lexFinish acc ++ lexRun .out none rest
      else if c = '#' then lexFinish acc
      else if c = '"' then lexRun .inQuote (some (acc.getD [])) rest
      else lexRun .out (some (acc.getD [] ++ [c])) rest
  | .inQuote, acc, c :: rest =>
      if c = '\\' then lexRun .inEscape acc rest
      else if c = '"' then lexRun .out (some (acc.getD [])) rest
      else lexRun .inQuote (some (acc.getD [] ++ [c])) rest
  | .inEscape, acc, c :: rest =>
      if c = '"' then lexRun .inQuote (some (acc.getD [] ++ ['"'])) rest
      else lexRun .inQuote (some (acc.getD [] ++ ['\\', c])) rest

/-- Modelled from the spec: `StringUtils::LexicalSplit` on one input line. -/
def LexicalSplit (source : String) : List String :=
  lexRun .out none source.toList

/-- Scan a quoted region's remaining characters. The `Bool` flag records
whether the scan sits right after a backslash. Returns `none` when an
unescaped closing `"` occurs, and `some body` — the decoded token text up to
end of line — when no unescaped closing quote occurs before end of line. -/
def quoteScan : Bool → List Char → Option (List Char)
  | false, [] => some []
  | false, c :: rest =>
      if c = '\\' then quoteScan true rest
      else if c = '"' then none
      else (quoteScan false rest).map (fun b => c :: b)
  | true, [] => some ['\\']
  | true, c :: rest =>
      (quoteScan false rest).map (fun b => (if c = '"' then ['"'] else ['\\', c]) ++ b)

/-- C4: tokenizing `"John Smith" 123 #note` yields exactly
`[John Smith, 123]`; `John" Smith" 45` yields `[John Smith, 45]`; and the
abutting quoted fragments `John" Smith"` and `John" "Smith` each merge into
the single token `John Smith`. -/
theorem lexicalSplit_examples :
    LexicalSplit "\"John Smith\" 123 #note" = ["John Smith", "123"] ∧
    LexicalSplit "John\" Smith\" 45" = ["John Smith", "45"] ∧
    LexicalSplit "John\" Smith\"" = ["John Smith"] ∧
    LexicalSplit "John\" \"Smith" = ["John Smith"] := by
  decide

/-- When no unescaped closing quote occurs (`quoteScan` succeeds), the
in-quote scanning loop produces exactly one token: the pending text plus the
decoded remainder of the line. -/
theorem quoteScan_lexRun (rest : List Char) :
    ∀ (e : Bool) (acc body : List Char), quoteScan e rest = some body →
      lexRun (cond e LexMode.inEscape LexMode.inQuote) (some acc) rest =
        [String.mk (acc ++ body)] := by
  induction rest with
  | nil =>
    intro e acc body h
    cases e <;> simp only [quoteScan, Option.some.injEq] at h <;>
      rw [← h] <;> simp [lexRun]
  | cons c rest ih =>
    intro e acc body h
    cases e with
    | false =>
      simp only [quoteScan] at h
      by_cases hb : c = '\\'
      · rw [if_pos hb] at h
        subst hb
        show lexRun LexMode.inQuote (some acc) ('\\' :: rest) = _
        have hstep : lexRun LexMode.inQuote (some acc) ('\\' :: rest) =
            lexRun LexMode.inEscape (some acc) rest := by
          simp [lexRun]
        rw [hstep]
        exact ih true acc body h
      · rw [if_neg hb] at h
        by_cases hq : c = '"'
        · rw [if_pos hq] at h; exact absurd h (by simp)
        · rw [if_neg hq] at h
          obtain ⟨b, hb2, hbody⟩ := Option.map_eq_some'.mp h
          subst hbody
          show lexRun LexMode.inQuote (some acc) (c :: rest) = _
          have hstep : lexRun LexMode.inQuote (some acc) (c :: rest) =
              lexRun LexMode.inQuote (some (acc ++ [c])) rest := by
            simp [lexRun, hb, hq]
          rw [hstep]
          have := ih false (acc ++ [c]) b hb2
          simpa using this
    | true =>
      simp only [quoteScan] at h
      obtain ⟨b, hb2, hbody⟩ := Option.map_eq_some'.mp h
      subst hbody
      show lexRun LexMode.inEscape (some acc) (c :: rest) = _
      by_cases hq : c = '"'
      · subst hq
        have hstep : lexRun LexMode.inEscape (some acc) ('"' :: rest) =
            lexRun LexMode.inQuote (some (acc ++ ['"'])) rest := by
          simp [lexRun]
        rw [hstep]
        have := ih false (acc ++ ['"']) b hb2
        simpa using this
      · have hstep : lexRun LexMode.inEscape (some acc) (c :: rest) =
            lexRun LexMode.inQuote (some (acc ++ ['\\', c])) rest := by
          simp [lexRun, hq]
        rw [hstep]
        have := ih false (acc ++ ['\\', c]) b hb2
        simp [hq]
        simpa using this

/-- A line remainder containing no quote character at all scans verbatim:
the decoded body is the remainder itself. -/
theorem quoteScan_no_quote (rest : List Char) (h : '"' ∉ rest) :
    quoteScan false rest = some rest ∧ quoteScan true rest = some ('\\' :: rest) := by
  induction rest with
  | nil => exact ⟨rfl, rfl⟩
  | cons c rest ih =>
    have hc : c ≠ '"' := fun hq => h (hq ▸ List.mem_cons_self c rest)
    have hrest : '"' ∉ rest := fun hm => h (List.mem_cons_of_mem c hm)
    obtain ⟨ih0, ih1⟩ := ih hrest
    constructor
    · simp only [quoteScan]
      by_cases hb : c = '\\'
      · rw [if_pos hb, ih1, hb]
      · rw [if_neg hb, if_neg hc, ih0]; rfl
    · simp only [quoteScan]
      rw [ih0, if_neg hc]
      rfl

/-- C5: for every input line in which a quote is opened and no closing
unescaped quote occurs before end of line (`quoteScan` succeeds on the rest
of the line), the tokenizer completes normally, taking the quoted token to be
everything from the opening quote up to end of line (merged with any pending
fragment, and decoded so that `\"` reads as a literal quote); in particular,
when the rest of the line contains no quote character at all, the token text
is literally the rest of the line. -/
theorem lexicalSplit_unclosed_quote (acc : Option (List Char)) (rest body : List Char) :
    (quoteScan false rest = some body →
      lexRun LexMode.out acc ('"' :: rest) = [String.mk (acc.getD [] ++ body)]) ∧
    ('"' ∉ rest → quoteScan false rest = some rest) := by
  constructor
  · intro h
    have hstep : lexRun LexMode.out acc ('"' :: rest) =
        lexRun LexMode.inQuote (some (acc.getD [])) rest := by
      simp [lexRun, isBlankChar, ccdbBlankCharacters]
    rw [hstep]
    exact quoteScan_lexRun rest false (acc.getD []) body h
  · exact fun h => (quoteScan_no_quote rest h).1

/-- Closed instance of `lexicalSplit_unclosed_quote`: the line
`Joh" n Sm` (pending fragment `Joh`, quote never closed) yields the single
token `Joh n Sm`. -/
theorem lexicalSplit_unclosed_quote_witness :
    lexRun LexMode.out (some ['J', 'o', 'h']) ('"' :: [' ', 'n', ' ', 'S', 'm']) =
      [String.mk ['J', 'o', 'h', ' ', 'n', ' ', 'S', 'm']] :=
  (lexicalSplit_unclosed_quote (some ['J', 'o', 'h']) [' ', 'n', ' ', 'S', 'm']
    [' ', 'n', ' ', 'S', 'm']).1 (by decide)

/-! ## DataProvider model

`DataProvider.h` declares the provider operations as pure virtual functions;
the implementation files (the SQL backends) are not among the analyzed
sources.  The operations below are therefore modelled from the spec (§3, §4.3,
§4.4, §6, §7), guided by the doc comments in `DataProvider.h`, which restate
the same contracts. -/

/-- A run range: an inclusive interval of run numbers, with an optional name
(empty string when unnamed). -/
structure RunRange where
  min : Int
  max : Int
  name : String
deriving DecidableEq

/-- An assignment: one immutable, versioned delivery of a table's data for a
given run range and variation, stamped with its creation time and its 1-based
version number within its (table, run range, variation) scope. -/
structure Assignment where
  tablePath : String
  runRange : RunRange
  variationName : String
  created : Nat
  version : Nat
  data : List (List String)
deriving DecidableEq

/-- A constants type table: a named, schema-fixed tabular definition with
fixed row and column counts. -/
structure ConstantsTypeTable where
  path : String
  nRows : Nat
  nColumns : Nat
deriving DecidableEq

/-- The provider's stored world: tables, run ranges, variation names and
assignments.  The assignment list is kept in creation order. -/
structure ProviderState where
  tables : List ConstantsTypeTable
  runRanges : List RunRange
  variations : List String
  assignments : List Assignment
deriving DecidableEq

/-- Modelled from the spec (§4.4 steps 2-3): an assignment is a candidate for
a query `(path, run, variation)` when it belongs to the table, its run range
contains the run (`min ≤ run ≤ max`), and its variation name exactly equals
the requested one. -/
def matchesQuery (a : Assignment) (path : String) (run : Int) (variation : String) : Bool :=
  a.tablePath == path && decide (a.runRange.min ≤ run) && decide (run ≤ a.runRange.max) &&
    a.variationName == variation

/-- The candidate set of §4.4, in stored (creation) order. -/
def candidates (asgs : List Assignment) (path : String) (run : Int) (variation : String) :
    List Assignment :=
  asgs.filter (fun a => matchesQuery a path run variation)

/-- Modelled from the spec (§4.4): of two candidates prefer the later
creation timestamp, breaking identical timestamps by the higher version. -/
def betterOf (a b : Assignment) : Assignment :=
  if a.created < b.created then b
  else if a.created = b.created ∧ a.version < b.version then b
  else a

/-- Pick the candidate with the maximum creation timestamp (`none` on an
empty candidate list). -/
def pickLatestCreated : List Assignment → Option Assignment
  | [] => none
  | x :: xs => some (xs.foldl betterOf x)

/-- Modelled from the spec: `DataProvider::GetAssignmentShort(run, path,
time, variation)` (declared at DataProvider.h lines 610-624) — restrict the
candidates to creation timestamp `≤ time` and return the one with the
maximum creation timestamp, or `none` when no candidate qualifies. -/
def GetAssignmentShort (asgs : List Assignment) (run : Int) (path : String) (time : Nat)
    (variation : String) : Option Assignment :=
  pickLatestCreated ((candidates asgs path run variation).filter (fun a => decide (a.created ≤ time)))

/-- Modelled from the spec: `DataProvider::GetAssignmentShortByVersion`
(declared at DataProvider.h lines 626-635) — order the per-scope candidate
sequence by creation ascending (the stored order), take the `version`-th
entry 1-based, `none` past the end. -/
def GetAssignmentShortByVersion (asgs : List Assignment) (run : Int) (path : String)
    (version : Nat) (variation : String) : Option Assignment :=
  if version = 0 then none
  else (candidates asgs path run variation).get? (version - 1)

/-- Same (table, run range, variation) scope, used for version numbering. -/
def scopeMatches (a : Assignment) (path : String) (rr : RunRange) (variation : String) : Bool :=
  a.tablePath == path && a.runRange == rr && a.variationName == variation

/-- Modelled from the spec (§3, §4.4 creation path): the next version number
in a scope is one more than the number of assignments already created in it. -/
def nextVersion (asgs : List Assignment) (path : String) (rr : RunRange) (variation : String) :
    Nat :=
  (asgs.filter (fun a => scopeMatches a path rr variation)).length + 1

/-- Append one newly created assignment, stamped with the next version number
of its scope. -/
def appendAssignment (asgs : List Assignment) (path : String) (rr : RunRange)
    (variation : String) (time : Nat) (d : List (List String)) : List Assignment :=
  asgs ++ [⟨path, rr, variation, time, nextVersion asgs path rr variation, d⟩]

/-- Create a sequence of assignments one after another in the same
(table, run range, variation) scope; each item carries its creation time and
data matrix. -/
def createSequence (path : String) (rr : RunRange) (variation : String) :
    List (Nat × List (List String)) → List Assignment → List Assignment
  | [], asgs => asgs
  | (t, d) :: items, asgs =>
      createSequence path rr variation items (appendAssignment asgs path rr variation t d)

/-- Modelled from the spec: `DataProvider::GetOrCreateRunRange` (declared at
DataProvider.h lines 477-484) — return the stored run range with these
bounds and name, creating and storing it when absent. -/
def GetOrCreateRunRange (st : ProviderState) (rmin rmax : Int) (name : String) :
    RunRange × ProviderState :=
  match st.runRanges.find? (fun r => r.min == rmin && r.max == rmax && r.name == name) with
  | some r => (r, st)
  | none =>
      let r : RunRange := ⟨rmin, rmax, name⟩
      (r, { st with runRanges := st.runRanges ++ [r] })

/-- Modelled from the spec and the doc comment of
`DataProvider::CreateAssignment(data, path, runMin, runMax, variationName,
comments)` (DataProvider.h lines 678-697, whose implementation file is not
among the analyzed sources): "If no such run range found, the new will be
created (with no name)"; "No action will be done (and NULL will be
returned): -- If no type table with such path exists -- If data is
inconsistent with columns number and rows number -- If no variation with
such name found". -/
def CreateAssignment (st : ProviderState) (d : List (List String)) (path : String)
    (runMin runMax : Int) (variationName : String) (time : Nat) :
    Option (Assignment × ProviderState) :=
  match st.tables.find? (fun tb => tb.path == path) with
  | none => none
  | some tb =>
      if st.variations.contains variationName = false then none
      else if (d.length == tb.nRows && d.all (fun row => row.length == tb.nColumns)) = false
      then none
      else
        let rr := (GetOrCreateRunRange st runMin runMax "").1
        let st2 := (GetOrCreateRunRange st runMin runMax "").2
        let a : Assignment :=
          ⟨path, rr, variationName, time, nextVersion st2.assignments path rr variationName, d⟩
        some (a, { st2 with assignments := st2.assignments ++ [a] })

/-- Error taxonomy entries needed here, from §7. -/
inductive ErrorCode
  | notFound : ErrorCode
  | conflict : ErrorCode
deriving DecidableEq

/-- Modelled from the spec: `DataProvider::DeleteConstantsTypeTable`
(declared at DataProvider.h lines 402-411): "The type table will not be
deleted if any assignment for this table exists".  Returns the resulting
state, a success flag, and the error reported on failure. -/
def DeleteConstantsTypeTable (st : ProviderState) (path : String) :
    ProviderState × Bool × Option ErrorCode :=
  if (st.tables.any (fun tb => tb.path == path)) = false then (st, false, some .notFound)
  else if st.assignments.any (fun a => a.tablePath == path) then (st, false, some .conflict)
  else ({ st with tables := st.tables.filter (fun tb => (tb.path == path) = false) }, true, none)

/-! ## Error bookkeeping (DataProvider.h lines 900-987) -/

/-- One retained error record: code, originating operation name, message. -/
structure CCDBError where
  errorCode : Int
  module : String
  message : String
deriving DecidableEq

/-- The member `mMaximumErrorsToHold`, documented as `=100` at
DataProvider.h line 987. -/
def mMaximumErrorsToHold : Nat := 100

/-- Modelled from the spec: `DataProvider::Error` appends one error record
to the retained list, which is a fixed-capacity buffer of
`mMaximumErrorsToHold` entries (oldest discarded beyond the cap). -/
def logError (errors : List CCDBError) (e : CCDBError) : List CCDBError :=
  let es := errors ++ [e]
  if mMaximumErrorsToHold < es.length then es.drop (es.length - mMaximumErrorsToHold) else es

/-- Modelled from the spec: `DataProvider::ClearErrors` (DataProvider.h
lines 942-946), "called on start of each function that produce errors". -/
def ClearErrors (_errors : List CCDBError) : List CCDBError := []

/-- Run `n` failing operations in a row with no intervening clear, each
appending one error record. -/
def induceFailures (mk : Nat → CCDBError) : Nat → List CCDBError → List CCDBError
  | 0, es => es
  | n + 1, es => induceFailures mk n (logError es (mk n))

/-! ## Column types (Schema Catalog) -/

/-- The column type tags of `ccdb::ConstantsTypeColumn`. -/
inductive ColumnType
  | cInt : ColumnType
  | cUInt : ColumnType
  | cLong : ColumnType
  | cULong : ColumnType
  | cDouble : ColumnType
  | cBool : ColumnType
  | cString : ColumnType
deriving DecidableEq

/-- The supported column type names, as enumerated by the spec and by the
doc comment of `CreateConstantsTypeTable` (DataProvider.h lines 339-361). -/
def supportedColumnTypeNames : List String :=
  ["int", "uint", "long", "ulong", "double", "bool", "string"]

/-- Modelled from the spec: `ccdb::ConstantsTypeColumn::StringToType`
(referenced by the doc comment at DataProvider.h lines 349-351, its
implementation file not among the analyzed sources) — case-sensitive mapping
of a type name to its tag; "other values will lead to double type". -/
def StringToType (s : String) : ColumnType :=
  if s = "int" then .cInt
  else if s = "uint" then .cUInt
  else if s = "long" then .cLong
  else if s = "ulong" then .cULong
  else if s = "double" then .cDouble
  else if s = "bool" then .cBool
  else if s = "string" then .cString
  else .cDouble

/-- Modelled from the spec: the column-materialization step of
`CreateConstantsTypeTable` — every requested column becomes a column whose
type is `StringToType` of its type string; no column is rejected. -/
def makeColumns (columns : List (String × String)) : List (String × ColumnType) :=
  columns.map (fun nc => (nc.1, StringToType nc.2))

/-! ## Concrete sample data shared by several witnesses -/

/-- A sample one-by-one type table. -/
def sampleTable : ConstantsTypeTable := ⟨"/test/t", 1, 1⟩

/-- A provider state holding `sampleTable`, the default variation, no run
ranges and no assignments. -/
def sampleState : ProviderState := ⟨[sampleTable], [], ["default"], []⟩

/-- A sample assignment for `sampleTable`. -/
def sampleAssignment : Assignment := ⟨"/test/t", ⟨0, 10, ""⟩, "default", 5, 1, [["1"]]⟩

/-- A provider state in which `sampleTable` has one assignment. -/
def sampleStateWithAssignment : ProviderState :=
  ⟨[sampleTable], [⟨0, 10, ""⟩], ["default"], [sampleAssignment]⟩

/-! ## Resolution theorems (C1, C2) -/

/-- `betterOf` returns one of its two arguments. -/
theorem betterOf_eq_or (a b : Assignment) : betterOf a b = a ∨ betterOf a b = b := by
  rw [betterOf]
  split
  · exact Or.inr rfl
  · split
    · exact Or.inr rfl
    · exact Or.inl rfl

/-- `betterOf` never goes below either argument's creation timestamp. -/
theorem created_le_betterOf (a b : Assignment) :
    a.created ≤ (betterOf a b).created ∧ b.created ≤ (betterOf a b).created := by
  rw [betterOf]
  split
  · next h => exact ⟨Nat.le_of_lt h, Nat.le_refl _⟩
  · next h =>
    split
    · next h2 => exact ⟨Nat.le_of_eq h2.1, Nat.le_refl _⟩
    · next h2 => exact ⟨Nat.le_refl _, Nat.le_of_not_lt h⟩

/-- The fold picking the latest candidate stays inside the candidate list. -/
theorem foldl_betterOf_mem (x : Assignment) (xs : List Assignment) :
    xs.foldl betterOf x ∈ x :: xs := by
  induction xs generalizing x with
  | nil => simp
  | cons y ys ih =>
    rw [List.foldl_cons]
    have h := ih (betterOf x y)
    rcases List.mem_cons.mp h with h1 | h1
    · rw [h1]
      rcases betterOf_eq_or x y with h2 | h2 <;> rw [h2]
      · exact List.mem_cons_self _ _
      · exact List.mem_cons_of_mem _ (List.mem_cons_self _ _)
    · exact List.mem_cons_of_mem _ (List.mem_cons_of_mem _ h1)

/-- Every element of the candidate list has creation timestamp at most that
of the fold's result. -/
theorem foldl_betterOf_le (x : Assignment) (xs : List Assignment) :
    ∀ b ∈ x :: xs, b.created ≤ (xs.foldl betterOf x).created := by
  induction xs generalizing x with
  | nil =>
    intro b hb
    rw [List.mem_singleton] at hb
    subst hb
    exact Nat.le_refl _
  | cons y ys ih =>
    intro b hb
    rw [List.foldl_cons]
    have hbase := ih (betterOf x y)
    rcases List.mem_cons.mp hb with h1 | h1
    · rw [h1]
      exact Nat.le_trans (created_le_betterOf x y).1 (hbase _ (List.mem_cons_self _ _))
    · rcases List.mem_cons.mp h1 with h2 | h2
      · rw [h2]
        exact Nat.le_trans (created_le_betterOf x y).2 (hbase _ (List.mem_cons_self _ _))
      · exact hbase b (List.mem_cons_of_mem _ h2)

/-- `pickLatestCreated` yields a member of its input list. -/
theorem pickLatestCreated_mem (l : List Assignment) (a : Assignment)
    (h : pickLatestCreated l = some a) : a ∈ l := by
  cases l with
  | nil => simp [pickLatestCreated] at h
  | cons x xs =>
    rw [pickLatestCreated, Option.some.injEq] at h
    rw [← h]
    exact foldl_betterOf_mem x xs

/-- `pickLatestCreated` yields an element of maximal creation timestamp. -/
theorem pickLatestCreated_max (l : List Assignment) (a : Assignment)
    (h : pickLatestCreated l = some a) : ∀ b ∈ l, b.created ≤ a.created := by
  cases l with
  | nil => simp [pickLatestCreated] at h
  | cons x xs =>
    rw [pickLatestCreated, Option.some.injEq] at h
    rw [← h]
    exact foldl_betterOf_le x xs

/-- `pickLatestCreated` returns `none` only on the empty list. -/
theorem pickLatestCreated_none (l : List Assignment)
    (h : pickLatestCreated l = none) : l = [] := by
  cases l with
  | nil => rfl
  | cons x xs => simp [pickLatestCreated] at h

/-- C1: the as-of-time query considers only assignments of the table whose
run range contains the run, whose variation name equals the requested one and
whose creation timestamp is at most `T`, returning one of maximal creation
timestamp among them; when no candidate was created at or before `T`, it
returns `none` — it never returns an assignment created after `T`. -/
theorem asOfTime_resolution (asgs : List Assignment) (run : Int) (path : String) (T : Nat)
    (v : String) :
    (∀ a, GetAssignmentShort asgs run path T v = some a →
        a ∈ asgs ∧ a.tablePath = path ∧ a.runRange.min ≤ run ∧ run ≤ a.runRange.max ∧
        a.variationName = v ∧ a.created ≤ T ∧
        (∀ b ∈ asgs, b.tablePath = path → b.runRange.min ≤ run → run ≤ b.runRange.max →
            b.variationName = v → b.created ≤ T → b.created ≤ a.created)) ∧
    (GetAssignmentShort asgs run path T v = none →
        ∀ b ∈ asgs, b.tablePath = path → b.runRange.min ≤ run → run ≤ b.runRange.max →
          b.variationName = v → T < b.created) := by
  constructor
  · intro a ha
    rw [GetAssignmentShort] at ha
    have hmem := pickLatestCreated_mem _ a ha
    have hmax := pickLatestCreated_max _ a ha
    rw [List.mem_filter] at hmem
    obtain ⟨hcand, hT⟩ := hmem
    rw [candidates, List.mem_filter] at hcand
    obtain ⟨hin, hq⟩ := hcand
    simp only [matchesQuery, Bool.and_eq_true, beq_iff_eq, decide_eq_true_eq] at hq
    refine ⟨hin, hq.1.1.1, hq.1.1.2, hq.1.2, hq.2, by simpa using hT, ?_⟩
    intro b hb hbp hbmin hbmax hbv hbT
    refine hmax b ?_
    rw [List.mem_filter]
    refine ⟨?_, by simpa using hbT⟩
    rw [candidates, List.mem_filter]
    refine ⟨hb, ?_⟩
    simp only [matchesQuery, Bool.and_eq_true, beq_iff_eq, decide_eq_true_eq]
    exact ⟨⟨⟨hbp, hbmin⟩, hbmax⟩, hbv⟩
  · intro hnone b hb hbp hbmin hbmax hbv
    rw [GetAssignmentShort] at hnone
    have hnil := pickLatestCreated_none _ hnone
    rw [List.filter_eq_nil_iff] at hnil
    have hbc : b ∈ candidates asgs path run v := by
      rw [candidates, List.mem_filter]
      refine ⟨hb, ?_⟩
      simp only [matchesQuery, Bool.and_eq_true, beq_iff_eq, decide_eq_true_eq]
      exact ⟨⟨⟨hbp, hbmin⟩, hbmax⟩, hbv⟩
    have := hnil b hbc
    simp only [decide_eq_true_eq] at this
    omega

/-- Closed instance of `asOfTime_resolution`: between two assignments created
at times 5 and 20, the query at cutoff 15 returns the one created at 5. -/
theorem asOfTime_resolution_witness :
    sampleAssignment ∈ [sampleAssignment,
      ⟨"/test/t", ⟨0, 10, ""⟩, "default", 20, 2, [["2"]]⟩] ∧
    sampleAssignment.created ≤ 15 :=
  ⟨((asOfTime_resolution [sampleAssignment,
      ⟨"/test/t", ⟨0, 10, ""⟩, "default", 20, 2, [["2"]]⟩] 5 "/test/t" 15 "default").1
      sampleAssignment (by decide)).1,
   ((asOfTime_resolution [sampleAssignment,
      ⟨"/test/t", ⟨0, 10, ""⟩, "default", 20, 2, [["2"]]⟩] 5 "/test/t" 15 "default").1
      sampleAssignment (by decide)).2.2.2.2.2.1⟩

/-- `createSequence` adds exactly one stored assignment per item. -/
theorem createSequence_length (path : String) (rr : RunRange) (v : String) :
    ∀ (items : List (Nat × List (List String))) (asgs : List Assignment),
      (createSequence path rr v items asgs).length = asgs.length + items.length := by
  intro items
  induction items with
  | nil => intro asgs; rw [createSequence]; simp
  | cons it items ih =>
    intro asgs
    obtain ⟨t, d⟩ := it
    rw [createSequence, ih]
    simp [appendAssignment]
    omega

/-- Everything `createSequence` stores lies in the creation scope, provided
the starting store does. -/
theorem createSequence_scope (path : String) (rr : RunRange) (v : String) :
    ∀ (items : List (Nat × List (List String))) (asgs : List Assignment),
      (∀ a ∈ asgs, scopeMatches a path rr v = true) →
      (∀ a ∈ createSequence path rr v items asgs, scopeMatches a path rr v = true) := by
  intro items
  induction items with
  | nil => intro asgs h; rw [createSequence]; exact h
  | cons it items ih =>
    intro asgs h
    obtain ⟨t, d⟩ := it
    rw [createSequence]
    refine ih _ ?_
    intro a ha
    rw [appendAssignment, List.mem_append] at ha
    rcases ha with ha | ha
    · exact h a ha
    · rw [List.mem_singleton] at ha
      subst ha
      simp [scopeMatches]

/-- Version numbers assigned by `createSequence`: continuing from a store
whose assignments all lie in the scope, the new records get the consecutive
versions following the store's length. -/
theorem createSequence_versions (path : String) (rr : RunRange) (v : String) :
    ∀ (items : List (Nat × List (List String))) (asgs : List Assignment),
      (∀ a ∈ asgs, scopeMatches a path rr v = true) →
      (createSequence path rr v items asgs).map Assignment.version =
        asgs.map Assignment.version ++ List.range' (asgs.length + 1) items.length := by
  intro items
  induction items with
  | nil => intro asgs h; rw [createSequence]; simp
  | cons it items ih =>
    intro asgs h
    obtain ⟨t, d⟩ := it
    rw [createSequence]
    have hfil : asgs.filter (fun a => scopeMatches a path rr v) = asgs :=
      List.filter_eq_self.mpr h
    have hscope2 : ∀ a ∈ appendAssignment asgs path rr v t d, scopeMatches a path rr v = true := by
      intro a ha
      rw [appendAssignment, List.mem_append] at ha
      rcases ha with ha | ha
      · exact h a ha
      · rw [List.mem_singleton] at ha
        subst ha
        simp [scopeMatches]
    rw [ih _ hscope2]
    rw [appendAssignment]
    simp only [List.map_append, List.length_append, List.map_cons, List.map_nil,
      List.length_cons, List.length_singleton]
    rw [nextVersion, hfil]
    rw [List.range'_succ (asgs.length + 1) items.length 1]
    simp

/-- All assignments stored by `createSequence` from an empty store match any
query whose run lies in the range and whose variation is the scope's. -/
theorem createSequence_candidates (path : String) (rr : RunRange) (v : String) (run : Int)
    (items : List (Nat × List (List String)))
    (hmin : rr.min ≤ run) (hmax : run ≤ rr.max) :
    candidates (createSequence path rr v items []) path run v =
      createSequence path rr v items [] := by
  rw [candidates]
  refine List.filter_eq_self.mpr ?_
  intro a ha
  have hs := createSequence_scope path rr v items [] (by intro a h; simp at h) a ha
  simp only [scopeMatches, Bool.and_eq_true, beq_iff_eq] at hs
  obtain ⟨⟨hp, hr⟩, hv⟩ := hs
  simp only [matchesQuery, Bool.and_eq_true, beq_iff_eq, decide_eq_true_eq]
  rw [hr]
  exact ⟨⟨⟨hp, hmin⟩, hmax⟩, hv⟩

/-- C2: creating `N` assignments one after another in one
(table, run range, variation) scope numbers them with versions exactly
`1..N` in creation order; resolving by version `K` with `1 ≤ K ≤ N` returns
the `K`-th created assignment, and any `K > N` returns `none`. -/
theorem version_numbering (path : String) (rr : RunRange) (v : String) (run : Int)
    (items : List (Nat × List (List String)))
    (hmin : rr.min ≤ run) (hmax : run ≤ rr.max) :
    ((createSequence path rr v items []).map Assignment.version =
        List.range' 1 items.length) ∧
    (∀ K, 1 ≤ K → K ≤ items.length →
        GetAssignmentShortByVersion (createSequence path rr v items []) run path K v =
          (createSequence path rr v items []).get? (K - 1) ∧
        ((createSequence path rr v items []).get? (K - 1)).isSome = true) ∧
    (∀ K, items.length < K →
        GetAssignmentShortByVersion (createSequence path rr v items []) run path K v =
          none) := by
  have hlen : (createSequence path rr v items []).length = items.length := by
    rw [createSequence_length]
    simp
  have hcand := createSequence_candidates path rr v run items hmin hmax
  refine ⟨?_, ?_, ?_⟩
  · have := createSequence_versions path rr v items [] (by intro a h; simp at h)
    simpa using this
  · intro K h1 h2
    rw [GetAssignmentShortByVersion, if_neg (by omega), hcand]
    refine ⟨rfl, ?_⟩
    have hlt : K - 1 < (createSequence path rr v items []).length := by omega
    rw [List.get?_eq_get hlt]
    rfl
  · intro K hK
    rw [GetAssignmentShortByVersion]
    by_cases h0 : K = 0
    · rw [if_pos h0]
    · rw [if_neg h0, hcand]
      refine List.get?_eq_none.mpr ?_
      omega

/-- Closed instance of `version_numbering`: two creations get versions
`[1, 2]`, and requesting version 3 yields `none`. -/
theorem version_numbering_witness :
    ((createSequence "/test/t" ⟨0, 10, ""⟩ "default" [(1, [["a"]]), (2, [["b"]])] []).map
        Assignment.version = List.range' 1 2) ∧
    GetAssignmentShortByVersion
      (createSequence "/test/t" ⟨0, 10, ""⟩ "default" [(1, [["a"]]), (2, [["b"]])] [])
      5 "/test/t" 3 "default" = none :=
  ⟨(version_numbering "/test/t" ⟨0, 10, ""⟩ "default" 5 [(1, [["a"]]), (2, [["b"]])]
      (by decide) (by decide)).1,
   (version_numbering "/test/t" ⟨0, 10, ""⟩ "default" 5 [(1, [["a"]]), (2, [["b"]])]
      (by decide) (by decide)).2.2 3 (by decide)⟩

/-! ## Assignment creation (C3) -/

/-- C3 counterexample: in a state whose table exists and whose data is
consistent, a creation request naming the absent variation `mc` returns
`none` instead of creating the variation on demand — assignment creation
does not get-or-create variations. -/
theorem createAssignment_missing_variation_fails :
    CreateAssignment sampleState [["1"]] "/test/t" 0 10 "mc" 5 = none ∧
    "mc" ∉ sampleState.variations ∧
    sampleState.tables = [sampleTable] := by
  decide

/-- C3 (amended): when the named type table exists and the data matrix is
consistent with it, a creation request naming a run range that does not yet
exist succeeds — the run range is created (or found) on demand and ends up
stored — provided the named variation exists; when the named variation does
not exist, the creation fails and returns `none`. -/
theorem createAssignment_runRange_onDemand (st : ProviderState) (d : List (List String))
    (path : String) (rmin rmax : Int) (v : String) (t : Nat) (tb : ConstantsTypeTable)
    (htable : st.tables.find? (fun x => x.path == path) = some tb)
    (hdata : (d.length == tb.nRows && d.all (fun row => row.length == tb.nColumns)) = true) :
    (v ∈ st.variations →
        ∃ a st2, CreateAssignment st d path rmin rmax v t = some (a, st2) ∧
          a.runRange.min = rmin ∧ a.runRange.max = rmax ∧ a.runRange ∈ st2.runRanges ∧
          a.variationName = v) ∧
    (v ∉ st.variations → CreateAssignment st d path rmin rmax v t = none) := by
  constructor
  · intro hv
    have hcont : st.variations.contains v = true := List.elem_iff.mpr hv
    cases hfind : st.runRanges.find? (fun r => r.min == rmin && r.max == rmax && r.name == "")
      with
    | some r =>
      have hpred := List.find?_some hfind
      simp only [Bool.and_eq_true, beq_iff_eq] at hpred
      have hmem := List.mem_of_find?_eq_some hfind
      have heq : CreateAssignment st d path rmin rmax v t =
          some (⟨path, r, v, t, nextVersion st.assignments path r v, d⟩,
            { st with assignments :=
                st.assignments ++ [⟨path, r, v, t, nextVersion st.assignments path r v, d⟩] }) := by
        simp [CreateAssignment, htable, hcont, hdata, GetOrCreateRunRange, hfind, hv]
      exact ⟨_, _, heq, hpred.1.1, hpred.1.2, hmem, rfl⟩
    | none =>
      have heq : CreateAssignment st d path rmin rmax v t =
          some (⟨path, ⟨rmin, rmax, ""⟩, v, t,
              nextVersion st.assignments path ⟨rmin, rmax, ""⟩ v, d⟩,
            { st with
              runRanges := st.runRanges ++ [⟨rmin, rmax, ""⟩],
              assignments := st.assignments ++
                [⟨path, ⟨rmin, rmax, ""⟩, v, t,
                  nextVersion st.assignments path ⟨rmin, rmax, ""⟩ v, d⟩] }) := by
        simp [CreateAssignment, htable, hcont, hdata, GetOrCreateRunRange, hfind, hv]
      refine ⟨_, _, heq, rfl, rfl, ?_, rfl⟩
      show (⟨rmin, rmax, ""⟩ : RunRange) ∈ st.runRanges ++ [⟨rmin, rmax, ""⟩]
      simp
  · intro hv
    have hcont : st.variations.contains v = false := by
      cases hcb : st.variations.contains v with
      | false => rfl
      | true => exact absurd (List.elem_iff.mp hcb) hv
    simp [CreateAssignment, htable, hcont, hv]

/-- Closed instance of `createAssignment_runRange_onDemand`: from
`sampleState` (no run ranges stored), creating an assignment in the existing
`default` variation succeeds with run range 0..10 created on demand. -/
theorem createAssignment_runRange_onDemand_witness :
    ∃ a st2, CreateAssignment sampleState [["1"]] "/test/t" 0 10 "default" 5 =
        some (a, st2) ∧
      a.runRange.min = 0 ∧ a.runRange.max = 10 ∧ a.runRange ∈ st2.runRanges ∧
      a.variationName = "default" :=
  (createAssignment_runRange_onDemand sampleState [["1"]] "/test/t" 0 10 "default" 5
    sampleTable (by decide) (by decide)).1 (by decide)

/-! ## Type table deletion guard (C7) -/

/-- C7: deleting a type table that exists fails with a Conflict error —
leaving the state unchanged — whenever at least one assignment exists for
the table, and succeeds (removing the table, reporting no error) once no
assignment for it remains. -/
theorem deleteTypeTable_guard (st : ProviderState) (path : String)
    (htable : st.tables.any (fun tb => tb.path == path) = true) :
    ((∃ a ∈ st.assignments, a.tablePath = path) →
        DeleteConstantsTypeTable st path = (st, false, some ErrorCode.conflict)) ∧
    ((∀ a ∈ st.assignments, a.tablePath ≠ path) →
        (DeleteConstantsTypeTable st path).2.1 = true ∧
        (DeleteConstantsTypeTable st path).2.2 = none ∧
        ∀ tb ∈ (DeleteConstantsTypeTable st path).1.tables, tb.path ≠ path) := by
  constructor
  · intro ⟨a, ha, hap⟩
    have hany : st.assignments.any (fun a => a.tablePath == path) = true := by
      rw [List.any_eq_true]
      exact ⟨a, ha, by simpa using hap⟩
    rw [DeleteConstantsTypeTable, if_neg (by simp [htable]), if_pos hany]
  · intro hnone
    have hany : st.assignments.any (fun a => a.tablePath == path) = false := by
      rw [Bool.eq_false_iff]
      intro hc
      rw [List.any_eq_true] at hc
      obtain ⟨a, ha, hap⟩ := hc
      exact hnone a ha (by simpa using hap)
    rw [DeleteConstantsTypeTable, if_neg (by simp [htable]), if_neg (by simp [hany])]
    refine ⟨rfl, rfl, ?_⟩
    intro tb htb
    simp only [List.mem_filter] at htb
    simpa using htb.2

/-- Closed instance of `deleteTypeTable_guard`: with one assignment present
the deletion reports Conflict and changes nothing; with none it succeeds. -/
theorem deleteTypeTable_guard_witness :
    DeleteConstantsTypeTable sampleStateWithAssignment "/test/t" =
      (sampleStateWithAssignment, false, some ErrorCode.conflict) ∧
    (DeleteConstantsTypeTable sampleState "/test/t").2.1 = true :=
  ⟨(deleteTypeTable_guard sampleStateWithAssignment "/test/t" (by decide)).1
      ⟨sampleAssignment, by decide, by decide⟩,
   ((deleteTypeTable_guard sampleState "/test/t" (by decide)).2 (by decide)).1⟩

/-! ## Error list cap (C6) -/

/-- Appending one error keeps the list within the cap and retains the new
record as the last entry. -/
theorem logError_length (es : List CCDBError) (e : CCDBError) :
    (logError es e).length = min (es.length + 1) mMaximumErrorsToHold := by
  rw [logError]
  simp only [mMaximumErrorsToHold]
  split
  · next h =>
    simp only [List.length_drop, List.length_append, List.length_singleton] at h ⊢
    omega
  · next h =>
    simp only [List.length_append, List.length_singleton] at h ⊢
    omega

/-- The newly appended error record is always retained as the last entry. -/
theorem logError_getLast (es : List CCDBError) (e : CCDBError) :
    (logError es e).getLast? = some e := by
  rw [logError]
  simp only [mMaximumErrorsToHold]
  split
  · next h =>
    rw [List.drop_append_of_le_length (by
      simp only [List.length_append, List.length_singleton] at h ⊢; omega)]
    exact List.getLast?_concat _
  · exact List.getLast?_concat _

/-- Length of the error list after `n` further failures, starting within the
cap. -/
theorem induceFailures_length (mk : Nat → CCDBError) :
    ∀ (n : Nat) (es : List CCDBError), es.length ≤ mMaximumErrorsToHold →
      (induceFailures mk n es).length = min (es.length + n) mMaximumErrorsToHold := by
  intro n
  induction n with
  | zero =>
    intro es h
    rw [induceFailures]
    simp only [mMaximumErrorsToHold] at h ⊢
    omega
  | succ n ih =>
    intro es h
    rw [induceFailures]
    rw [ih _ (by rw [logError_length]; simp only [mMaximumErrorsToHold]; omega)]
    rw [logError_length]
    simp only [mMaximumErrorsToHold] at h ⊢
    omega

/-- C6: the retained error list is a fixed-capacity buffer of
`mMaximumErrorsToHold = 100` records — `ClearErrors` (run at the start of
every public operation that can fail) empties it, each failure appends one
record (always retained as the newest entry), and `n` failures with no
intervening clear leave exactly `min n 100` records: after 150 induced
failures the length is exactly 100. -/
theorem error_list_capped (mk : Nat → CCDBError) (es : List CCDBError) (e : CCDBError)
    (n : Nat) :
    ClearErrors es = [] ∧
    (logError es e).getLast? = some e ∧
    (induceFailures mk n (ClearErrors es)).length = min n mMaximumErrorsToHold ∧
    (induceFailures mk 150 (ClearErrors es)).length = mMaximumErrorsToHold := by
  refine ⟨rfl, logError_getLast es e, ?_, ?_⟩
  · rw [ClearErrors, induceFailures_length mk n [] (by simp [mMaximumErrorsToHold])]
    simp
  · rw [ClearErrors, induceFailures_length mk 150 [] (by simp [mMaximumErrorsToHold])]
    simp [mMaximumErrorsToHold]

/-! ## Column type mapping (C8) -/

/-- C8 counterexample: the supported column type names enumerated by the
spec and the header (`int, uint, long, ulong, double, bool, string`) are
seven, not six, and they map to seven pairwise distinct type tags. -/
theorem columnTypes_are_seven_not_six :
    (supportedColumnTypeNames.map StringToType).Nodup ∧
    supportedColumnTypeNames.length = 7 ∧
    supportedColumnTypeNames.length ≠ 6 := by
  decide

/-- C8 (amended): every column type string maps case-sensitively to one of
the seven supported tags — each supported name to its own tag, in order, and
every other string (including case variants) to `double`; column
materialization never drops or rejects a column, whatever its type string. -/
theorem stringToType_spec :
    (∀ s, s ∉ supportedColumnTypeNames → StringToType s = ColumnType.cDouble) ∧
    supportedColumnTypeNames.map StringToType =
      [ColumnType.cInt, ColumnType.cUInt, ColumnType.cLong, ColumnType.cULong,
        ColumnType.cDouble, ColumnType.cBool, ColumnType.cString] ∧
    (∀ columns : List (String × String),
        (makeColumns columns).map Prod.fst = columns.map Prod.fst) := by
  refine ⟨?_, by decide, ?_⟩
  · intro s hs
    simp only [supportedColumnTypeNames, List.mem_cons, List.not_mem_nil, or_false,
      not_or] at hs
    obtain ⟨h1, h2, h3, h4, h5, h6, h7⟩ := hs
    rw [StringToType, if_neg h1, if_neg h2, if_neg h3, if_neg h4, if_neg h5, if_neg h6,
      if_neg h7]
  · intro columns
    rw [makeColumns]
    simp

/-- Closed instance of `stringToType_spec`: the case variant `Int` is not a
supported name and falls back to `double`. -/
theorem stringToType_spec_witness : StringToType "Int" = ColumnType.cDouble :=
  stringToType_spec.1 "Int" (by decide)

end ccdb
